import Mathlib

/-!
Verification of the Modality Composition & Windowed Normalization Engine
(`wall_x/data/modality_wrapper.py`, `scripts/compute_norm_stats.py`).

The Python code is shallowly embedded: tensors become (nested) lists over an
arbitrary element type `α` (so element-type / dtype preservation is visible in
the Lean types), dictionaries become association lists or functions into
`Option`, and Python exceptions become an explicit `Except Err` monad.
-/

namespace WallX

/-- Decidable equality for the error monad, so concrete runs of the embedded
code can be checked by `decide`. -/
instance {ε α : Type} [DecidableEq ε] [DecidableEq α] : DecidableEq (Except ε α) :=
  fun a b =>
    match a, b with
    | .ok x, .ok y =>
      if h : x = y then .isTrue (by rw [h]) else .isFalse (by simp [h])
    | .error x, .error y =>
      if h : x = y then .isTrue (by rw [h]) else .isFalse (by simp [h])
    | .ok _, .error _ => .isFalse (by simp)
    | .error _, .ok _ => .isFalse (by simp)

/-- Python index normalization for `x[i]`-style slice endpoints on a list of
length `len`: a negative endpoint counts from the end (clamped at 0), a
non-negative endpoint is clamped at `len`. -/
def pyIdx (len : Nat) (i : Int) : Nat :=
  if i < 0 then (len + i).toNat else min i.toNat len

/-- Python slice `x[s:e]` on a one-dimensional tensor (list), with the `-1`
sentinel meaning `x[s:]`, exactly as `_slice_last_dim` branches on `end == -1`
(modality_wrapper.py lines 86-90). -/
def sliceList {α : Type} (x : List α) (s e : Int) : List α :=
  if e = -1 then x.drop (pyIdx x.length s)
  else (x.take (pyIdx x.length e)).drop (pyIdx x.length s)

/-- Length of the slice `sliceList` produces, as a function of the raw field
width `w` and the spec's `start`/`end`. -/
def sliceLenSpec (w : Nat) (s e : Int) : Nat :=
  if e = -1 then w - pyIdx w s else pyIdx w e - pyIdx w s

/-- Torch tensors of the dimensions the wrapper manipulates: 0-dim scalars,
1-dim vectors (`[D]`) and 2-dim matrices (`[H, D]`). -/
inductive PyTensor (α : Type) where
  | scalarT (x : α)
  | vec (v : List α)
  | mat (m : List (List α))
deriving DecidableEq

/-- Python exceptions the embedded code can raise: `KeyError`/missing column
(the spec's MissingFieldError, carrying the offending original key), a failed
episode-table lookup (the spec's EpisodeLookupError), `IndexError`
(`parts[0]` on an empty list, or slicing a 0-dim tensor), and a
`torch.cat` shape mismatch. -/
inductive Err where
  | missingField (key : String)
  | episodeLookup (ep : Nat)
  | indexError
  | shapeMismatch
deriving DecidableEq

/-- Embedding of `_slice_last_dim` (modality_wrapper.py lines 86-90):
`x[..., start:]` when `end == -1`, else `x[..., start:end]`.  Slicing the last
axis of a 0-dim tensor raises `IndexError` in torch. -/
def slice_last_dim {α : Type} : PyTensor α → Int → Int → Except Err (PyTensor α)
  | .scalarT _, _, _ => .error .indexError
  | .vec v, s, e => .ok (.vec (sliceList v s e))
  | .mat m, s, e => .ok (.mat (m.map (fun r => sliceList r s e)))

/-- A parsed field specification (one entry of `self.state_specs` /
`self.action_specs` in `_parse_vector_specs`). `endIdx` stands for the
source's `end` key (a Lean keyword). -/
structure FieldSpec where
  original_key : String
  start : Int
  endIdx : Int
deriving DecidableEq

/-- One raw entry of the modality.json block handed to `_parse_vector_specs`:
`original_key` may be absent (then `cfg["original_key"]` raises `KeyError`),
`start`/`end` may be absent (then `cfg.get` applies the defaults 0 and -1). -/
structure RawCfg where
  original_key : Option String
  start : Option Int
  endIdx : Option Int

/-- Embedding of the body of the loop in `_parse_vector_specs`
(modality_wrapper.py lines 70-77): read `cfg["original_key"]` (KeyError if
absent, modeled as a missing-field error), default `start` to 0 and `end`
to -1. No further validation is performed by the source. -/
def parseSpec (cfg : RawCfg) : Except Err FieldSpec :=
  match cfg.original_key with
  | none => .error (.missingField ("original_key"))
  | some k => .ok ⟨k, cfg.start.getD 0, cfg.endIdx.getD (-1)⟩

/-- Error-propagating map over a list, the monadic shape of every
`for`-loop-with-append in the source. -/
def exceptMap {σ β : Type} (g : σ → Except Err β) : List σ → Except Err (List β)
  | [] => .ok []
  | a :: as =>
    match g a with
    | .error e => .error e
    | .ok b =>
      match exceptMap g as with
      | .error e => .error e
      | .ok bs => .ok (b :: bs)

/-- Embedding of `_parse_vector_specs` (modality_wrapper.py lines 63-78): the
descriptor block is an insertion-ordered mapping, modeled as an association
list; the loop drops the feature name and appends one spec per entry in
iteration order. -/
def parse_vector_specs (block : List (String × RawCfg)) : Except Err (List FieldSpec) :=
  exceptMap (fun e => parseSpec e.2) block

/-- One item returned by `LeRobotDataset.__getitem__`: the scalar
`episode_index` (already extracted to an integer, line 111) together with the
keyed tensor columns. -/
structure Item (α : Type) where
  episode_index : Nat
  fields : String → Option (PyTensor α)

/-- Checks that every part is a 1-dim tensor and extracts the vectors. -/
def allVecs {α : Type} : List (PyTensor α) → Option (List (List α))
  | [] => some []
  | .vec v :: rest => (allVecs rest).map (fun vs => v :: vs)
  | _ :: _ => none

/-- Checks that every part is a 2-dim tensor and extracts the matrices. -/
def allMats {α : Type} : List (PyTensor α) → Option (List (List (List α)))
  | [] => some []
  | .mat m :: rest => (allMats rest).map (fun ms => m :: ms)
  | _ :: _ => none

/-- The rows of `torch.cat(ms, dim=-1)` for matrices `ms` that all have `h`
rows: row `i` of the result is the concatenation of the `i`-th rows. -/
def catMatRows {α : Type} (h : Nat) (ms : List (List (List α))) : List (List α) :=
  (List.range h).map (fun i => (ms.map (fun m => m.getD i [])).flatten)

/-- The result of `torch.cat(ms, dim=-1)`: requires all matrices to have the
same number of rows. -/
def catMats {α : Type} : List (List (List α)) → Except Err (PyTensor α)
  | [] => .error .indexError
  | m0 :: rest =>
    if (m0 :: rest).all (fun m => m.length = m0.length) then
      .ok (.mat (catMatRows m0.length (m0 :: rest)))
    else .error .shapeMismatch

/-- `torch.cat(parts, dim=-1)`: all parts 1-dim (concatenate the vectors) or
all parts 2-dim with matching row counts (concatenate row-wise); anything
else is a shape error. -/
def catLastDim {α : Type} (parts : List (PyTensor α)) : Except Err (PyTensor α) :=
  match allVecs parts with
  | some vs => .ok (.vec vs.flatten)
  | none =>
    match allMats parts with
    | some ms => catMats ms
    | none => .error .shapeMismatch

/-- Embedding of `torch.cat(parts, dim=-1) if len(parts) > 1 else parts[0]`
(modality_wrapper.py lines 98 and 131); `parts[0]` on an empty list raises
`IndexError`. -/
def catOrSingle {α : Type} (parts : List (PyTensor α)) : Except Err (PyTensor α) :=
  if parts.length > 1 then catLastDim parts
  else
    match parts with
    | [p] => .ok p
    | _ => .error .indexError

/-- Loop body of `_compose_state` (modality_wrapper.py lines 94-97): fetch
`item[orig]` (a missing key raises, carrying the key) and slice the last
axis. `_ensure_tensor` is the identity here because `Item.fields` already
stores tensors. -/
def stateFetchSlice {α : Type} (item : Item α) (sp : FieldSpec) :
    Except Err (PyTensor α) :=
  match item.fields sp.original_key with
  | none => .error (.missingField sp.original_key)
  | some t => slice_last_dim t sp.start sp.endIdx

/-- Embedding of `_compose_state` (modality_wrapper.py lines 92-98): run the
fetch-and-slice loop over the specs, then concatenate (or return the single
part). -/
def compose_state {α : Type} (item : Item α) (specs : List FieldSpec) :
    Except Err (PyTensor α) :=
  match exceptMap (stateFetchSlice item) specs with
  | .error e => .error e
  | .ok parts => catOrSingle parts

/-- The clamped candidate index for offset `t` (modality_wrapper.py line 114):
`min(max(idx + t, ep_start), ep_end - 1)`. -/
def clampedIndex (epStart epEnd idx : Int) (t : Nat) : Int :=
  min (max (idx + t) epStart) (epEnd - 1)

/-- The full list of clamped indices for a horizon of length `H`
(modality_wrapper.py line 114). -/
def windowIndices (H : Nat) (epStart epEnd idx : Int) : List Int :=
  (List.range H).map (clampedIndex epStart epEnd idx)

/-- Embedding of `self.hf_dataset.select(indices)[orig]` followed by
`torch.stack` (modality_wrapper.py lines 125-126): fetch row `i`'s column
`orig` for each index; a missing column raises, carrying the key. -/
def gatherRows {α : Type} (ds : Int → String → Option (List α)) (key : String) :
    List Int → Except Err (List (List α))
  | [] => .ok []
  | i :: is =>
    match ds i key with
    | none => .error (.missingField key)
    | some r =>
      match gatherRows ds key is with
      | .error e => .error e
      | .ok rs => .ok (r :: rs)

/-- Embedding of the per-spec fetch in `_compose_action` (modality_wrapper.py
lines 120-126): if `orig` maps to a tensor of `ndim >= 2` in the item, use it
(fast path); otherwise gather the rows at the clamped indices from the
underlying frame store and stack them. -/
def fetchActionTensor {α : Type} (ds : Int → String → Option (List α))
    (item : Item α) (indices : List Int) (sp : FieldSpec) :
    Except Err (PyTensor α) :=
  match item.fields sp.original_key with
  | some (.mat m) => .ok (.mat m)
  | _ =>
    match gatherRows ds sp.original_key indices with
    | .error e => .error e
    | .ok rows => .ok (.mat rows)

/-- Loop body of `_compose_action` (modality_wrapper.py lines 117-129): fetch
the per-spec `[H, D]` tensor (fast path or fallback gather) and slice its
last axis. -/
def actionFetchSlice {α : Type} (ds : Int → String → Option (List α))
    (item : Item α) (indices : List Int) (sp : FieldSpec) :
    Except Err (PyTensor α) :=
  match fetchActionTensor ds item indices sp with
  | .error e => .error e
  | .ok x => slice_last_dim x sp.start sp.endIdx

/-- Embedding of `_compose_action` (modality_wrapper.py lines 100-131):
resolve the episode bounds of the item's episode index from the episode table
(`episode_data_index`), clamp the horizon indices, fetch and slice each
spec's tensor, then concatenate along the last axis (or return the single
part). -/
def compose_action {α : Type} (H : Nat) (epTable : Nat → Option (Int × Int))
    (ds : Int → String → Option (List α)) (item : Item α) (idx : Int)
    (specs : List FieldSpec) : Except Err (PyTensor α) :=
  match epTable item.episode_index with
  | none => .error (.episodeLookup item.episode_index)
  | some (epStart, epEnd) =>
    match exceptMap (actionFetchSlice ds item (windowIndices H epStart epEnd idx)) specs with
    | .error e => .error e
    | .ok parts => catOrSingle parts

/-- The item after `item[self.state_key] = self._compose_state(item)`
(modality_wrapper.py line 137): the state key is overwritten in place, so the
subsequent `_compose_action` call sees the injected value. -/
def stateInjected {α : Type} (item : Item α) (skey : String) (st : PyTensor α) :
    Item α :=
  ⟨item.episode_index, fun k => if k = skey then some st else item.fields k⟩

/-- Embedding of `ModalityAwareLeRobotDataset.__getitem__` (modality_wrapper.py
lines 133-139): take the base item, inject the composed state under
`state_key` (mutating the record), then inject the composed action under
`action_key`, and return the record. -/
def getItem {α : Type} (H : Nat) (epTable : Nat → Option (Int × Int))
    (ds : Int → String → Option (List α)) (sspecs aspecs : List FieldSpec)
    (skey akey : String) (item : Item α) (idx : Int) :
    Except Err (String → Option (PyTensor α)) :=
  match compose_state item sspecs with
  | .error e => .error e
  | .ok st =>
    match compose_action H epTable ds (stateInjected item skey st) idx aspecs with
    | .error e => .error e
    | .ok ac =>
      .ok (fun k =>
        if k = akey then some ac
        else (stateInjected item skey st).fields k)

/-- Modelled from the spec: `scripts/compute_norm_stats.py` imports
`normalize.RunningStats`, whose module is not part of the sources; the
accumulator is modelled from spec section 4.4 — `count`, per-dimension `mean`
and `m2` over a fixed dimension `D`, here over exact rationals. -/
structure RunningStats (D : Nat) where
  count : Nat
  mean : Fin D → ℚ
  m2 : Fin D → ℚ

/-- Modelled from the spec: Welford's single-sample update of section 4.4 —
`count += 1; delta = x - mean; mean += delta / count; delta2 = x - mean;
m2 += delta * delta2`, elementwise over the `D` dimensions. -/
def RunningStats.update1 {D : Nat} (s : RunningStats D) (x : Fin D → ℚ) :
    RunningStats D :=
  let count : Nat := s.count + 1
  let delta : Fin D → ℚ := fun i => x i - s.mean i
  let mean : Fin D → ℚ := fun i => s.mean i + delta i / (count : ℚ)
  let delta2 : Fin D → ℚ := fun i => x i - mean i
  ⟨count, mean, fun i => s.m2 i + delta i * delta2 i⟩

/-- Modelled from the spec: `update(accumulator, batch)` flattens the batch
into a sample list and applies Welford's update per sample. -/
def RunningStats.update {D : Nat} (s : RunningStats D)
    (xs : List (Fin D → ℚ)) : RunningStats D :=
  xs.foldl RunningStats.update1 s

/-- Modelled from the spec: a freshly created, empty accumulator. -/
def RunningStats.empty (D : Nat) : RunningStats D :=
  ⟨0, fun _ => 0, fun _ => 0⟩

/-- Modelled from the spec: the parallel-variance combination formula of
section 4.4 — `count_c = count_a + count_b; delta = mean_b - mean_a;
mean_c = mean_a + delta * count_b / count_c;
m2_c = m2_a + m2_b + delta^2 * count_a * count_b / count_c`. -/
def RunningStats.merge {D : Nat} (a b : RunningStats D) : RunningStats D :=
  let count : Nat := a.count + b.count
  let delta : Fin D → ℚ := fun i => b.mean i - a.mean i
  ⟨count,
   fun i => a.mean i + delta i * (b.count : ℚ) / (count : ℚ),
   fun i => a.m2 i + b.m2 i + delta i ^ 2 * (a.count : ℚ) * (b.count : ℚ) / (count : ℚ)⟩

/-- Elementwise sum of a batch, dimension `i`. -/
def batchSum {D : Nat} (xs : List (Fin D → ℚ)) (i : Fin D) : ℚ :=
  (xs.map (fun x => x i)).sum

/-- Elementwise sum of squares of a batch, dimension `i`. -/
def batchSumSq {D : Nat} (xs : List (Fin D → ℚ)) (i : Fin D) : ℚ :=
  (xs.map (fun x => x i ^ 2)).sum

/-- Closed form of the accumulator obtained from a batch: count is the sample
count, mean the arithmetic mean, `m2` the sum of squared deviations (both 0
for the empty batch, matching the `0 / 0 = 0` convention of `ℚ`). -/
def statsOf {D : Nat} (xs : List (Fin D → ℚ)) : RunningStats D :=
  ⟨xs.length,
   fun i => batchSum xs i / (xs.length : ℚ),
   fun i => batchSumSq xs i - (batchSum xs i) ^ 2 / (xs.length : ℚ)⟩

/-- Element domain with a non-finite marker, used to observe that composition
passes non-finite values through unchanged. -/
inductive FVal where
  | fin (q : Int)
  | nan
deriving DecidableEq

/-- Finiteness test on `FVal`. -/
def FVal.isFinite : FVal → Bool
  | .fin _ => true
  | .nan => false

/-- All elements of a tensor, flattened. -/
def tensorElems {α : Type} : PyTensor α → List α
  | .scalarT x => [x]
  | .vec v => v
  | .mat m => m.flatten




/-- Availability of one action spec's raw data, as `_compose_action` needs it:
either the item already holds a pre-gathered 2-dim tensor with `H` rows of
width `w` under the original key (fast path), or every in-episode row of the
underlying column store holds a width-`w` vector for that key (fallback
gather). -/
def specResolved {α : Type} (H : Nat) (epStart epEnd : Int)
    (ds : Int → String → Option (List α)) (item : Item α) (w : Nat)
    (sp : FieldSpec) : Prop :=
  match item.fields sp.original_key with
  | some (.mat m) => m.length = H ∧ ∀ r ∈ m, r.length = w
  | _ => ∀ i : Int, epStart ≤ i → i ≤ epEnd - 1 →
      ∃ r, ds i sp.original_key = some r ∧ r.length = w

/-! Concrete fixtures used by the witness theorems below. -/

/-- Witness frame over the `FVal` domain whose only column holds a
non-finite value. -/
def w9nan : Item FVal := ⟨0, fun k => if k = "x" then some (.vec [FVal.nan]) else none⟩

/-- Witness column store over `FVal` whose rows all hold the non-finite
value. -/
def w9ds : Int → String → Option (List FVal) := fun _ _ => some [FVal.nan]

/-- Witness specs selecting the whole column `x`. -/
def w9specs : List FieldSpec := [⟨"x", 0, -1⟩]

/-- Witness column store over `Int` used to instantiate the action-path
provenance law. -/
def w9ids : Int → String → Option (List Int) := fun _ _ => some [2]

/-- Witness frame over `Int` used to instantiate the pass-through law. -/
def w9wit : Item Int := ⟨0, fun k => if k = "x" then some (.vec [1]) else none⟩


/-- Projection of a `__getitem__` result at one key (`none` on failure),
used to observe returned records. -/
def getItemField {α : Type} (res : Except Err (String → Option (PyTensor α)))
    (k : String) : Option (PyTensor α) :=
  match res with
  | .ok r => r k
  | .error _ => none

/-- Witness base item that already contains an `action` key with value
`[99]` before composition. -/
def w8item : Item Int :=
  ⟨0, fun k =>
    if k = "s" then some (.vec [1])
    else if k = "action" then some (.vec [99]) else none⟩

/-- Witness column store holding the raw action column `act`. -/
def w8ds : Int → String → Option (List Int) :=
  fun _ k => if k = "act" then some [7] else none

/-- Witness state specs reading column `s`. -/
def w8s : List FieldSpec := [⟨"s", 0, -1⟩]

/-- Witness action specs reading column `act`. -/
def w8a : List FieldSpec := [⟨"act", 0, -1⟩]

/-- The record `__getitem__` produces on the `w8` fixtures. -/
def w8r : String → Option (PyTensor Int) := fun k =>
  if k = "action" then some (.mat [[7]])
  else if k = "state" then some (.vec [1])
  else w8item.fields k


/-- Witness column store for the fast/fallback comparison: column `act` holds
`[i]` at row `i`. -/
def w7ds : Int → String → Option (List Int) :=
  fun i k => if k = "act" then some [i] else none

/-- Witness item for the fast path: the pre-gathered `[H, 1]` tensor for
episode `[0, 3)`, `idx = 2`, `H = 2` (clamped indices `[2, 2]`). -/
def w7fast : Item Int := ⟨0, fun k => if k = "act" then some (.mat [[2], [2]]) else none⟩

/-- Witness item for the fallback path: no pre-gathered tensors. -/
def w7fb : Item Int := ⟨0, fun _ => none⟩

/-- Witness action specs for the fast/fallback comparison. -/
def w7specs : List FieldSpec := [⟨"act", 0, -1⟩]


/-- Witness frame: column `a` is a 1-dim tensor, column `b` is absent. -/
def w4item : Item Int := ⟨0, fun k => if k = "a" then some (.vec [1]) else none⟩

/-- Witness action item with no pre-gathered tensors. -/
def w4aitem : Item Int := ⟨0, fun _ => none⟩

/-- Witness episode table: episode 0 spans `[0, 3)`. -/
def w4eps : Nat → Option (Int × Int) := fun e => if e = 0 then some (0, 3) else none

/-- Witness column store with no columns at all. -/
def w4ds : Int → String → Option (List Int) := fun _ _ => none

/-- Witness state specs referencing `a` (present) and `b` (absent). -/
def w4s : List FieldSpec := [⟨"a", 0, -1⟩, ⟨"b", 0, -1⟩]

/-- Witness action specs referencing the absent column `c`. -/
def w4a : List FieldSpec := [⟨"c", 0, -1⟩]

theorem windowIndices_getD (H : Nat) (a b c : Int) (t : Nat) (ht : t < H) :
    (windowIndices H a b c).getD t 0 = clampedIndex a b c t := by
  simp [windowIndices, List.getD, List.getElem?_map, List.getElem?_range, ht]

theorem mem_windowIndices {H : Nat} {a b c x : Int} :
    x ∈ windowIndices H a b c ↔ ∃ t, t < H ∧ clampedIndex a b c t = x := by
  simp [windowIndices, List.mem_map, List.mem_range]

/-- C1: for an episode with `ep.start < ep.end` and any horizon `H ≥ 1`, the
`t`-th clamped index equals `min(max(idx + t, ep.start), ep.end - 1)`; every
clamped index lies in `[ep.start, ep.end - 1]`; the index sequence is
monotonically non-decreasing and stays at `ep.end - 1` once it reaches it;
and for `idx ≥ ep.end - 1` all `H` clamped indices equal `ep.end - 1`. -/
theorem window_clamp_correct (epStart epEnd idx : Int) (H : Nat)
    (hse : epStart < epEnd) (_hH : 1 ≤ H) :
    (∀ t, t < H → (windowIndices H epStart epEnd idx).getD t 0 =
        min (max (idx + t) epStart) (epEnd - 1))
    ∧ (∀ c ∈ windowIndices H epStart epEnd idx, epStart ≤ c ∧ c ≤ epEnd - 1)
    ∧ (∀ t u, t ≤ u → u < H →
        (windowIndices H epStart epEnd idx).getD t 0 ≤
          (windowIndices H epStart epEnd idx).getD u 0)
    ∧ (∀ t u, t ≤ u → u < H →
        (windowIndices H epStart epEnd idx).getD t 0 = epEnd - 1 →
          (windowIndices H epStart epEnd idx).getD u 0 = epEnd - 1)
    ∧ (epEnd - 1 ≤ idx → ∀ c ∈ windowIndices H epStart epEnd idx, c = epEnd - 1) := by
  refine ⟨?_, ?_, ?_, ?_, ?_⟩
  · intro t ht
    rw [windowIndices_getD H epStart epEnd idx t ht]
    rfl
  · intro c hc
    rcases mem_windowIndices.mp hc with ⟨t, _, rfl⟩
    simp only [clampedIndex]
    omega
  · intro t u htu hu
    rw [windowIndices_getD H epStart epEnd idx t (lt_of_le_of_lt htu hu),
        windowIndices_getD H epStart epEnd idx u hu]
    simp only [clampedIndex]
    omega
  · intro t u htu hu
    rw [windowIndices_getD H epStart epEnd idx t (lt_of_le_of_lt htu hu),
        windowIndices_getD H epStart epEnd idx u hu]
    simp only [clampedIndex]
    omega
  · intro hidx c hc
    rcases mem_windowIndices.mp hc with ⟨t, _, rfl⟩
    simp only [clampedIndex]
    omega

/-- C1 witness: the clamping properties instantiated at the spec's worked
example, episode `[10, 15)`, `idx = 13`, `H = 4`. -/
theorem window_clamp_correct_witness :
    (10 : Int) < 15 ∧ 1 ≤ 4 ∧
    ((∀ t, t < 4 → (windowIndices 4 10 15 13).getD t 0 =
        min (max (13 + (t : Int)) 10) (15 - 1))
    ∧ (∀ c ∈ windowIndices 4 10 15 13, 10 ≤ c ∧ c ≤ 15 - 1)
    ∧ (∀ t u, t ≤ u → u < 4 →
        (windowIndices 4 10 15 13).getD t 0 ≤ (windowIndices 4 10 15 13).getD u 0)
    ∧ (∀ t u, t ≤ u → u < 4 →
        (windowIndices 4 10 15 13).getD t 0 = 15 - 1 →
          (windowIndices 4 10 15 13).getD u 0 = 15 - 1)
    ∧ ((15 : Int) - 1 ≤ 13 → ∀ c ∈ windowIndices 4 10 15 13, c = 15 - 1)) :=
  ⟨by decide, by decide, window_clamp_correct 10 15 13 4 (by decide) (by decide)⟩



theorem exceptMap_ok_of {σ β : Type} (g : σ → Except Err β) (out : σ → β) :
    ∀ (l : List σ), (∀ a ∈ l, g a = .ok (out a)) →
      exceptMap g l = .ok (l.map out)
  | [], _ => rfl
  | a :: as, h => by
    have ha := h a (List.mem_cons_self a as)
    have hrest := exceptMap_ok_of g out as (fun x hx => h x (List.mem_cons_of_mem a hx))
    simp [exceptMap, ha, hrest]

theorem allVecs_map_vec {α : Type} :
    ∀ (l : List (List α)), allVecs (l.map PyTensor.vec) = some l
  | [] => rfl
  | v :: rest => by simp [allVecs, allVecs_map_vec rest]

theorem catOrSingle_vecs {α : Type} (l : List (List α)) (h : l ≠ []) :
    catOrSingle (l.map PyTensor.vec) = .ok (.vec l.flatten) := by
  match l with
  | [] => exact absurd rfl h
  | [v] => simp [catOrSingle]
  | v :: w :: rest =>
    have hv := allVecs_map_vec (v :: w :: rest)
    simp only [List.map_cons] at hv
    simp [catOrSingle, catLastDim, hv]

theorem drop_min_self {α : Type} (v : List α) (a : Nat) :
    v.drop (min a v.length) = v.drop a := by
  rcases le_total a v.length with h | h
  · rw [min_eq_left h]
  · rw [min_eq_right h, List.drop_length, Eq.comm, List.drop_eq_nil_iff]
    omega

theorem sliceList_neg_one {α : Type} (v : List α) (s : Int) (hs : 0 ≤ s) :
    sliceList v s (-1) = v.drop s.toNat := by
  simp only [sliceList, if_pos rfl, pyIdx, if_neg (by omega : ¬s < 0)]
  exact drop_min_self v s.toNat

/-- C2: whenever the frame holds a 1-dim tensor for every referenced original
key and the block is non-empty, the composed state is the concatenation, in
block order, of the per-spec slices; its length is the sum of the slice
lengths; a one-entry block yields exactly the single slice, and with
`end = -1` that is `frame[original_key][start:]`. Element type (dtype) is
preserved by the type of `compose_state` itself. -/
theorem compose_state_correct {α : Type} (item : Item α) (specs : List FieldSpec)
    (f : FieldSpec → List α) (hne : specs ≠ [])
    (hf : ∀ sp ∈ specs, item.fields sp.original_key = some (.vec (f sp))) :
    compose_state item specs =
        .ok (.vec ((specs.map (fun sp => sliceList (f sp) sp.start sp.endIdx)).flatten))
    ∧ ((specs.map (fun sp => sliceList (f sp) sp.start sp.endIdx)).flatten).length =
        (specs.map (fun sp => (sliceList (f sp) sp.start sp.endIdx).length)).sum
    ∧ (∀ sp0, specs = [sp0] →
        compose_state item specs = .ok (.vec (sliceList (f sp0) sp0.start sp0.endIdx)))
    ∧ (∀ sp0, specs = [sp0] → sp0.endIdx = -1 → 0 ≤ sp0.start →
        compose_state item specs = .ok (.vec ((f sp0).drop sp0.start.toNat))) := by
  have hmain : compose_state item specs =
      .ok (.vec ((specs.map (fun sp => sliceList (f sp) sp.start sp.endIdx)).flatten)) := by
    have hmap : exceptMap (stateFetchSlice item) specs =
        .ok (specs.map (fun sp => PyTensor.vec (sliceList (f sp) sp.start sp.endIdx))) := by
      apply exceptMap_ok_of
      intro sp hsp
      rw [stateFetchSlice, hf sp hsp]
      rfl
    have : specs.map (fun sp => PyTensor.vec (sliceList (f sp) sp.start sp.endIdx)) =
        (specs.map (fun sp => sliceList (f sp) sp.start sp.endIdx)).map PyTensor.vec := by
      rw [List.map_map]
      rfl
    unfold compose_state
    rw [hmap, this]
    exact catOrSingle_vecs _ (by simpa using hne)
  refine ⟨hmain, ?_, ?_, ?_⟩
  · rw [List.length_flatten, List.map_map]
    rfl
  · intro sp0 hsp0
    subst hsp0
    simpa using hmain
  · intro sp0 hsp0 hend hstart
    subst hsp0
    have := hmain
    rw [this]
    simp [sliceList_neg_one (f sp0) sp0.start hstart, hend]

/-- C2 witness: the composition example of spec section 8, frame
`obs.pos = [1,2,3,9,9]`, `obs.vel = [4,5]`, block `[(0,3), (0,-1)]`, composed
state `[1,2,3,4,5]`. -/
theorem compose_state_correct_witness :
    compose_state
        (⟨0, fun k =>
          if k = "obs.pos" then some (.vec ([1, 2, 3, 9, 9] : List Int))
          else if k = "obs.vel" then some (.vec [4, 5]) else none⟩ : Item Int)
        [⟨"obs.pos", 0, 3⟩, ⟨"obs.vel", 0, -1⟩] =
      .ok (.vec [1, 2, 3, 4, 5]) := by
  have h := compose_state_correct
    (⟨0, fun k =>
      if k = "obs.pos" then some (.vec ([1, 2, 3, 9, 9] : List Int))
      else if k = "obs.vel" then some (.vec [4, 5]) else none⟩ : Item Int)
    [⟨"obs.pos", 0, 3⟩, ⟨"obs.vel", 0, -1⟩]
    (fun sp => if sp.original_key = "obs.pos" then [1, 2, 3, 9, 9] else [4, 5])
    (by decide) (by decide)
  rw [h.1]
  rfl



theorem exceptMap_ok_forall {σ β : Type} (g : σ → Except Err β) :
    ∀ (l : List σ) (bs : List β), exceptMap g l = .ok bs →
      ∀ a ∈ l, ∃ b, g a = .ok b
  | [], _, _, a, ha => absurd ha (List.not_mem_nil a)
  | x :: xs, bs, h, a, ha => by
    rw [exceptMap] at h
    rcases hx : g x with e | b
    · rw [hx] at h; exact absurd h (by simp)
    · rw [hx] at h
      rcases hrest : exceptMap g xs with e | bs' <;> rw [hrest] at h
      · exact absurd h (by simp)
      · rcases List.mem_cons.mp ha with rfl | ha'
        · exact ⟨b, hx⟩
        · exact exceptMap_ok_forall g xs bs' hrest a ha'

/-- C5 counterexample: an entry violating every documented validation rule —
empty `original_key`, negative `start`, `end` neither `-1` nor greater than
`start` — is accepted by `_parse_vector_specs` instead of failing with a
configuration error. -/
theorem parse_validation_cex :
    parse_vector_specs [("bad_feature", ⟨some (""), some (-3), some (-7)⟩)] =
      .ok [⟨"", -3, -7⟩] := by decide

/-- C5 amended: `_parse_vector_specs` performs no validation at all — it
succeeds, producing one spec per entry in iteration order with defaults
`start = 0`, `end = -1`, exactly when every entry carries an `original_key`
(of any value, including the empty string, and any `start`/`end` ints); it is
a pure function of the descriptor. -/
theorem parse_no_validation (block : List (String × RawCfg)) :
    parse_vector_specs block =
        .ok (block.map (fun e =>
          ⟨(e.2.original_key).getD "", (e.2.start).getD 0, (e.2.endIdx).getD (-1)⟩))
      ↔ (∀ e ∈ block, (e.2.original_key).isSome) := by
  constructor
  · intro h e he
    rcases exceptMap_ok_forall _ block _ h e he with ⟨b, hb⟩
    rcases hk : e.2.original_key with _ | k
    · rw [parseSpec, hk] at hb
      exact absurd hb (by simp)
    · simp [hk]
  · intro h
    apply exceptMap_ok_of
    intro e he
    rcases Option.isSome_iff_exists.mp (h e he) with ⟨k, hk⟩
    simp [parseSpec, hk]

/-- C10: an entry that has an `original_key` but no `start`/`end` parses
without failure, with `start` defaulting to 0 and `end` defaulting to the
`-1` sentinel, and the resulting slice `[0:]` with sentinel end selects the
whole raw field. -/
theorem parse_defaults {α : Type} (cfg : RawCfg) (k : String) (v : List α)
    (h : cfg.original_key = some k) :
    parseSpec cfg = .ok ⟨k, cfg.start.getD 0, cfg.endIdx.getD (-1)⟩
    ∧ (cfg.start = none → cfg.endIdx = none → parseSpec cfg = .ok ⟨k, 0, -1⟩)
    ∧ sliceList v 0 (-1) = v := by
  refine ⟨by simp [parseSpec, h], ?_, ?_⟩
  · intro h1 h2
    simp [parseSpec, h, h1, h2]
  · simp [sliceList, pyIdx]

/-- C10 witness: a descriptor entry carrying only an `original_key` parses to
the defaulted spec and selects the whole raw field `[1, 2, 3]`. -/
theorem parse_defaults_witness :
    parseSpec ⟨some ("obs.q"), none, none⟩ = .ok ⟨"obs.q", 0, -1⟩
    ∧ sliceList ([1, 2, 3] : List Int) 0 (-1) = [1, 2, 3] :=
  ⟨((parse_defaults ⟨some ("obs.q"), none, none⟩ "obs.q" ([1, 2, 3] : List Int) rfl).2.1
      rfl rfl),
   (parse_defaults ⟨some ("obs.q"), none, none⟩ "obs.q" ([1, 2, 3] : List Int) rfl).2.2⟩



theorem exceptMap_error_mem {σ β : Type} (g : σ → Except Err β) :
    ∀ (l : List σ) (e : Err), exceptMap g l = .error e → ∃ a ∈ l, g a = .error e
  | [], e, h => by simp [exceptMap] at h
  | x :: xs, e, h => by
    rw [exceptMap] at h
    rcases hx : g x with e' | b
    · rw [hx] at h
      rw [show e' = e from by injection h] at hx
      exact ⟨x, List.mem_cons_self x xs, hx⟩
    · rw [hx] at h
      rcases hr : exceptMap g xs with e' | bs <;> rw [hr] at h
      · rw [show e' = e from by injection h] at hr
        rcases exceptMap_error_mem g xs e hr with ⟨a, ha, hga⟩
        exact ⟨a, List.mem_cons_of_mem x ha, hga⟩
      · exact absurd h (by simp)

theorem exceptMap_missing_of_mem {σ β : Type} (g : σ → Except Err β) :
    ∀ (l : List σ),
      (∀ a ∈ l, (∃ b, g a = .ok b) ∨ (∃ k, g a = .error (.missingField k))) →
      (∃ a ∈ l, ∃ k, g a = .error (.missingField k)) →
      ∃ k, exceptMap g l = .error (.missingField k)
  | [], _, h2 => by simp at h2
  | x :: xs, h1, h2 => by
    rcases h1 x (List.mem_cons_self x xs) with ⟨b, hb⟩ | ⟨k, hk⟩
    · have h2' : ∃ a ∈ xs, ∃ k, g a = .error (.missingField k) := by
        rcases h2 with ⟨a, ha, k, hk⟩
        rcases List.mem_cons.mp ha with rfl | ha'
        · rw [hb] at hk; exact absurd hk (by simp)
        · exact ⟨a, ha', k, hk⟩
      rcases exceptMap_missing_of_mem g xs
          (fun a ha => h1 a (List.mem_cons_of_mem x ha)) h2' with ⟨k, hk⟩
      exact ⟨k, by rw [exceptMap, hb, hk]⟩
    · exact ⟨k, by rw [exceptMap, hk]⟩

theorem catMats_ne_missing {α : Type} (ms : List (List (List α))) (k : String) :
    catMats ms ≠ .error (.missingField k) := by
  match ms with
  | [] => simp [catMats]
  | m0 :: rest =>
    rw [catMats]
    split <;> simp

theorem catLastDim_ne_missing {α : Type} (parts : List (PyTensor α)) (k : String) :
    catLastDim parts ≠ .error (.missingField k) := by
  rcases hv : allVecs parts with _ | vs
  · rcases hm : allMats parts with _ | ms
    · simp [catLastDim, hv, hm]
    · simp only [catLastDim, hv, hm]
      exact catMats_ne_missing ms k
  · simp [catLastDim, hv]

theorem catOrSingle_ne_missing {α : Type} (parts : List (PyTensor α)) (k : String) :
    catOrSingle parts ≠ .error (.missingField k) := by
  rcases parts with _ | ⟨p, _ | ⟨q, rest⟩⟩
  · simp [catOrSingle]
  · simp [catOrSingle]
  · have h2 : (p :: q :: rest).length > 1 := by simp
    unfold catOrSingle
    rw [if_pos h2]
    exact catLastDim_ne_missing (p :: q :: rest) k

theorem gatherRows_error {α : Type} (ds : Int → String → Option (List α)) (key : String) :
    ∀ (is : List Int) (e : Err), gatherRows ds key is = .error e →
      e = .missingField key ∧ ∃ i ∈ is, ds i key = none
  | [], e, h => by simp [gatherRows] at h
  | i :: is', e, h => by
    rw [gatherRows] at h
    rcases hd : ds i key with _ | r
    · rw [hd] at h
      exact ⟨(show Err.missingField key = e from by injection h).symm, i,
        List.mem_cons_self i is', hd⟩
    · rw [hd] at h
      rcases hr : gatherRows ds key is' with e' | rs <;> rw [hr] at h
      · rw [show e' = e from by injection h] at hr
        rcases gatherRows_error ds key is' e hr with ⟨he, j, hj, hdj⟩
        exact ⟨he, j, List.mem_cons_of_mem i hj, hdj⟩
      · exact absurd h (by simp)

theorem gatherRows_ok {α : Type} (ds : Int → String → Option (List α)) (key : String) :
    ∀ (is : List Int), (∀ i ∈ is, ∃ r, ds i key = some r) →
      ∃ rows, gatherRows ds key is = .ok rows ∧
        List.Forall₂ (fun i r => ds i key = some r) is rows
  | [], _ => ⟨[], rfl, List.Forall₂.nil⟩
  | i :: is', h => by
    rcases h i (List.mem_cons_self i is') with ⟨r, hr⟩
    rcases gatherRows_ok ds key is' (fun j hj => h j (List.mem_cons_of_mem i hj)) with
      ⟨rows, hrows, hall⟩
    exact ⟨r :: rows, by rw [gatherRows, hr, hrows], List.Forall₂.cons hr hall⟩

theorem windowIndices_cons (H : Nat) (a b c : Int) (hH : 1 ≤ H) :
    ∃ j js, windowIndices H a b c = j :: js := by
  rcases hw : windowIndices H a b c with _ | ⟨j, js⟩
  · have hlen : (windowIndices H a b c).length = H := by simp [windowIndices]
    rw [hw] at hlen
    simp at hlen
    omega
  · exact ⟨j, js, rfl⟩



theorem stateFetchSlice_missing {α : Type} (item : Item α) (sp : FieldSpec) (k : String)
    (h : stateFetchSlice item sp = .error (.missingField k)) :
    sp.original_key = k ∧ item.fields sp.original_key = none := by
  rw [stateFetchSlice] at h
  rcases hf : item.fields sp.original_key with _ | t
  · rw [hf] at h
    exact ⟨by injection h with h'; injection h', rfl⟩
  · rw [hf] at h
    rcases t with x | v | m <;> simp [slice_last_dim] at h

theorem actionFetchSlice_missing {α : Type} (ds : Int → String → Option (List α))
    (item : Item α) (indices : List Int) (sp : FieldSpec) (k : String)
    (h : actionFetchSlice ds item indices sp = .error (.missingField k)) :
    sp.original_key = k ∧ ∃ i ∈ indices, ds i sp.original_key = none := by
  rw [actionFetchSlice] at h
  rcases hf : fetchActionTensor ds item indices sp with e | x
  · rw [hf] at h
    rw [show e = Err.missingField k from by injection h] at hf
    rw [fetchActionTensor] at hf
    rcases hi : item.fields sp.original_key with _ | t
    · rw [hi] at hf
      rcases hg : gatherRows ds sp.original_key indices with e' | rows <;> rw [hg] at hf
      · rw [show e' = Err.missingField k from by injection hf] at hg
        rcases gatherRows_error ds sp.original_key indices _ hg with ⟨he, i, hiidx, hd⟩
        exact ⟨by injection he with h'; exact h'.symm, i, hiidx, hd⟩
      · exact absurd hf (by simp)
    · rw [hi] at hf
      rcases t with x | v | m
      · rcases hg : gatherRows ds sp.original_key indices with e' | rows <;> rw [hg] at hf
        · rw [show e' = Err.missingField k from by injection hf] at hg
          rcases gatherRows_error ds sp.original_key indices _ hg with ⟨he, i, hiidx, hd⟩
          exact ⟨by injection he with h'; exact h'.symm, i, hiidx, hd⟩
        · exact absurd hf (by simp)
      · rcases hg : gatherRows ds sp.original_key indices with e' | rows <;> rw [hg] at hf
        · rw [show e' = Err.missingField k from by injection hf] at hg
          rcases gatherRows_error ds sp.original_key indices _ hg with ⟨he, i, hiidx, hd⟩
          exact ⟨by injection he with h'; exact h'.symm, i, hiidx, hd⟩
        · exact absurd hf (by simp)
      · exact absurd hf (by simp)
  · rw [hf] at h
    rcases x with x | v | m <;> simp [slice_last_dim] at h

theorem compose_state_unfold {α : Type} (item : Item α) (specs : List FieldSpec) :
    compose_state item specs =
      match exceptMap (stateFetchSlice item) specs with
      | .error e => .error e
      | .ok parts => catOrSingle parts := by
  unfold compose_state
  rfl

theorem compose_action_unfold {α : Type} (H : Nat) (epTable : Nat → Option (Int × Int))
    (ds : Int → String → Option (List α)) (item : Item α) (idx : Int)
    (specs : List FieldSpec) (epStart epEnd : Int)
    (hep : epTable item.episode_index = some (epStart, epEnd)) :
    compose_action H epTable ds item idx specs =
      match exceptMap (actionFetchSlice ds item (windowIndices H epStart epEnd idx)) specs with
      | .error e => .error e
      | .ok parts => catOrSingle parts := by
  unfold compose_action
  rw [hep]

theorem getItem_state_error {α : Type} (H : Nat) (epTable : Nat → Option (Int × Int))
    (ds : Int → String → Option (List α)) (sspecs aspecs : List FieldSpec)
    (skey akey : String) (item : Item α) (idx : Int) (e : Err)
    (he : compose_state item sspecs = .error e) :
    getItem H epTable ds sspecs aspecs skey akey item idx = .error e := by
  unfold getItem
  rw [he]

theorem getItem_action_error {α : Type} (H : Nat) (epTable : Nat → Option (Int × Int))
    (ds : Int → String → Option (List α)) (sspecs aspecs : List FieldSpec)
    (skey akey : String) (item : Item α) (idx : Int) (e : Err) (st : PyTensor α)
    (hst : compose_state item sspecs = .ok st)
    (hac : compose_action H epTable ds (stateInjected item skey st) idx aspecs = .error e) :
    getItem H epTable ds sspecs aspecs skey akey item idx = .error e := by
  unfold getItem
  simp only [hst, hac]

/-- C4: composition fails with a missing-field error carrying the offending
original key exactly when some spec's original key is absent — from the frame
on the state path, and (with no pre-gathered fast-path tensors) from the
underlying column store on the action path's fallback gather — and any
composition failure propagates unchanged through `__getitem__` to the caller. -/
theorem missing_field_iff {α : Type} (item aitem : Item α)
    (sspecs aspecs : List FieldSpec) (H : Nat)
    (epTable : Nat → Option (Int × Int)) (ds : Int → String → Option (List α))
    (idx epStart epEnd : Int) (skey akey : String)
    (hvec : ∀ sp ∈ sspecs, item.fields sp.original_key = none ∨
        ∃ v, item.fields sp.original_key = some (.vec v))
    (hep : epTable aitem.episode_index = some (epStart, epEnd))
    (hH : 1 ≤ H)
    (hnofast : ∀ sp ∈ aspecs, ∀ m, aitem.fields sp.original_key ≠ some (.mat m))
    (hcols : ∀ sp ∈ aspecs, (∀ i, ds i sp.original_key = none) ∨
        (∀ i, ∃ r, ds i sp.original_key = some r)) :
    ((∃ sp ∈ sspecs, item.fields sp.original_key = none) ↔
        ∃ k, compose_state item sspecs = .error (.missingField k))
    ∧ (∀ k, compose_state item sspecs = .error (.missingField k) →
        ∃ sp ∈ sspecs, sp.original_key = k ∧ item.fields k = none)
    ∧ ((∃ sp ∈ aspecs, ∀ i, ds i sp.original_key = none) ↔
        ∃ k, compose_action H epTable ds aitem idx aspecs = .error (.missingField k))
    ∧ (∀ k, compose_action H epTable ds aitem idx aspecs = .error (.missingField k) →
        ∃ sp ∈ aspecs, sp.original_key = k ∧ ∀ i, ds i k = none)
    ∧ (∀ e, compose_state item sspecs = .error e →
        getItem H epTable ds sspecs aspecs skey akey item idx = .error e)
    ∧ (∀ e st, compose_state item sspecs = .ok st →
        compose_action H epTable ds (stateInjected item skey st) idx aspecs = .error e →
        getItem H epTable ds sspecs aspecs skey akey item idx = .error e) := by
  have hstateErr : ∀ k, compose_state item sspecs = .error (.missingField k) →
      ∃ sp ∈ sspecs, sp.original_key = k ∧ item.fields k = none := by
    intro k h
    rw [compose_state_unfold] at h
    rcases hm : exceptMap (stateFetchSlice item) sspecs with e | parts <;>
      simp only [hm] at h
    · rw [show e = Err.missingField k from by injection h] at hm
      rcases exceptMap_error_mem _ sspecs _ hm with ⟨sp, hsp, hg⟩
      rcases stateFetchSlice_missing item sp k hg with ⟨hk, hnone⟩
      exact ⟨sp, hsp, hk, by rw [hk] at hnone; exact hnone⟩
    · exact absurd h (catOrSingle_ne_missing parts k)
  have hactionErr : ∀ k, compose_action H epTable ds aitem idx aspecs = .error (.missingField k) →
      ∃ sp ∈ aspecs, sp.original_key = k ∧ ∀ i, ds i k = none := by
    intro k h
    rw [compose_action_unfold H epTable ds aitem idx aspecs epStart epEnd hep] at h
    rcases hm : exceptMap (actionFetchSlice ds aitem
        (windowIndices H epStart epEnd idx)) aspecs with e | parts <;>
      simp only [hm] at h
    · rw [show e = Err.missingField k from by injection h] at hm
      rcases exceptMap_error_mem _ aspecs _ hm with ⟨sp, hsp, hg⟩
      rcases actionFetchSlice_missing ds aitem _ sp k hg with ⟨hk, i, _, hd⟩
      rcases hcols sp hsp with habs | hpres
      · exact ⟨sp, hsp, hk, by rw [← hk]; exact habs⟩
      · rcases hpres i with ⟨r, hr⟩
        rw [hd] at hr
        exact absurd hr (by simp)
    · exact absurd h (catOrSingle_ne_missing parts k)
  refine ⟨⟨?_, ?_⟩, hstateErr, ⟨?_, ?_⟩, hactionErr, ?_, ?_⟩
  · rintro ⟨sp, hsp, hnone⟩
    have h1 : ∀ a ∈ sspecs, (∃ b, stateFetchSlice item a = .ok b) ∨
        (∃ k, stateFetchSlice item a = .error (.missingField k)) := by
      intro a ha
      rcases hvec a ha with hn | ⟨v, hv⟩
      · exact Or.inr ⟨a.original_key, by rw [stateFetchSlice, hn]⟩
      · exact Or.inl ⟨.vec (sliceList v a.start a.endIdx),
          by rw [stateFetchSlice, hv]; rfl⟩
    have h2 : ∃ a ∈ sspecs, ∃ k, stateFetchSlice item a = .error (.missingField k) :=
      ⟨sp, hsp, sp.original_key, by rw [stateFetchSlice, hnone]⟩
    rcases exceptMap_missing_of_mem _ sspecs h1 h2 with ⟨k, hk⟩
    exact ⟨k, by rw [compose_state_unfold, hk]⟩
  · rintro ⟨k, hk⟩
    rcases hstateErr k hk with ⟨sp, hsp, hkey, hnone⟩
    exact ⟨sp, hsp, by rw [hkey]; exact hnone⟩
  · rintro ⟨sp, hsp, habs⟩
    rcases windowIndices_cons H epStart epEnd idx hH with ⟨j, js, hw⟩
    have h1 : ∀ a ∈ aspecs, (∃ b, actionFetchSlice ds aitem
          (windowIndices H epStart epEnd idx) a = .ok b) ∨
        (∃ k, actionFetchSlice ds aitem
          (windowIndices H epStart epEnd idx) a = .error (.missingField k)) := by
      intro a ha
      rcases hcols a ha with habs' | hpres
      · refine Or.inr ⟨a.original_key, ?_⟩
        have hgather : gatherRows ds a.original_key (windowIndices H epStart epEnd idx) =
            .error (.missingField a.original_key) := by
          rw [hw, gatherRows, habs' j]
        have hfetch : fetchActionTensor ds aitem (windowIndices H epStart epEnd idx) a =
            .error (.missingField a.original_key) := by
          rw [fetchActionTensor]
          rcases hi : aitem.fields a.original_key with _ | t
          · rw [hgather]
          · rcases t with x | v | m
            · rw [hgather]
            · rw [hgather]
            · exact absurd hi (hnofast a ha m)
        rw [actionFetchSlice, hfetch]
      · rcases gatherRows_ok ds a.original_key (windowIndices H epStart epEnd idx)
            (fun i _ => hpres i) with ⟨rows, hrows, _⟩
        have hfetch : fetchActionTensor ds aitem (windowIndices H epStart epEnd idx) a =
            .ok (.mat rows) := by
          rw [fetchActionTensor]
          rcases hi : aitem.fields a.original_key with _ | t
          · rw [hrows]
          · rcases t with x | v | m
            · rw [hrows]
            · rw [hrows]
            · exact absurd hi (hnofast a ha m)
        exact Or.inl ⟨.mat (rows.map (fun r => sliceList r a.start a.endIdx)),
          by rw [actionFetchSlice, hfetch]; rfl⟩
    have h2 : ∃ a ∈ aspecs, ∃ k, actionFetchSlice ds aitem
        (windowIndices H epStart epEnd idx) a = .error (.missingField k) := by
      refine ⟨sp, hsp, sp.original_key, ?_⟩
      have hgather : gatherRows ds sp.original_key (windowIndices H epStart epEnd idx) =
          .error (.missingField sp.original_key) := by
        rw [hw, gatherRows, habs j]
      have hfetch : fetchActionTensor ds aitem (windowIndices H epStart epEnd idx) sp =
          .error (.missingField sp.original_key) := by
        rw [fetchActionTensor]
        rcases hi : aitem.fields sp.original_key with _ | t
        · rw [hgather]
        · rcases t with x | v | m
          · rw [hgather]
          · rw [hgather]
          · exact absurd hi (hnofast sp hsp m)
      rw [actionFetchSlice, hfetch]
    rcases exceptMap_missing_of_mem _ aspecs h1 h2 with ⟨k, hk⟩
    refine ⟨k, ?_⟩
    rw [compose_action_unfold H epTable ds aitem idx aspecs epStart epEnd hep, hk]
  · rintro ⟨k, hk⟩
    rcases hactionErr k hk with ⟨sp, hsp, hkey, habs⟩
    exact ⟨sp, hsp, by rw [hkey]; exact habs⟩
  · intro e he
    exact getItem_state_error H epTable ds sspecs aspecs skey akey item idx e he
  · intro e st hst hac
    exact getItem_action_error H epTable ds sspecs aspecs skey akey item idx e st hst hac



/-- C4 witness: with column `b` missing from the state frame and column `c`
absent from the column store, both composition paths fail with the
missing-field error, and the error payloads name the absent keys. -/
theorem missing_field_iff_witness :
    ((∃ sp ∈ w4s, w4item.fields sp.original_key = none) ↔
        ∃ k, compose_state w4item w4s = .error (.missingField k))
    ∧ (∀ k, compose_state w4item w4s = .error (.missingField k) →
        ∃ sp ∈ w4s, sp.original_key = k ∧ w4item.fields k = none)
    ∧ ((∃ sp ∈ w4a, ∀ i, w4ds i sp.original_key = none) ↔
        ∃ k, compose_action 2 w4eps w4ds w4aitem 0 w4a = .error (.missingField k))
    ∧ (∀ k, compose_action 2 w4eps w4ds w4aitem 0 w4a = .error (.missingField k) →
        ∃ sp ∈ w4a, sp.original_key = k ∧ ∀ i, w4ds i k = none)
    ∧ (∀ e, compose_state w4item w4s = .error e →
        getItem 2 w4eps w4ds w4s w4a "state" "action" w4item 0 = .error e)
    ∧ (∀ e st, compose_state w4item w4s = .ok st →
        compose_action 2 w4eps w4ds (stateInjected w4item "state" st) 0 w4a = .error e →
        getItem 2 w4eps w4ds w4s w4a "state" "action" w4item 0 = .error e) :=
  missing_field_iff w4item w4aitem w4s w4a 2 w4eps w4ds 0 0 3 "state" "action"
    (by
      intro sp hsp
      fin_cases hsp
      · exact Or.inr ⟨[1], by decide⟩
      · exact Or.inl (by decide))
    (by decide) (by decide)
    (by
      intro sp hsp m h
      exact Option.noConfusion h)
    (fun sp _ => Or.inl (fun i => rfl))



theorem pyIdx_le (len : Nat) (i : Int) : pyIdx len i ≤ len := by
  rw [pyIdx]
  split <;> omega

theorem sliceList_length {α : Type} (x : List α) (s e : Int) :
    (sliceList x s e).length = sliceLenSpec x.length s e := by
  rw [sliceList, sliceLenSpec]
  split
  · simp
  · have := pyIdx_le x.length e
    simp
    omega

theorem exceptMap_ok_forall2 {σ β : Type} (g : σ → Except Err β) (Q : σ → β → Prop) :
    ∀ (l : List σ), (∀ a ∈ l, ∃ b, g a = .ok b ∧ Q a b) →
      ∃ bs, exceptMap g l = .ok bs ∧ List.Forall₂ Q l bs
  | [], _ => ⟨[], rfl, List.Forall₂.nil⟩
  | x :: xs, h => by
    rcases h x (List.mem_cons_self x xs) with ⟨b, hb, hQ⟩
    rcases exceptMap_ok_forall2 g Q xs (fun a ha => h a (List.mem_cons_of_mem x ha)) with
      ⟨bs, hbs, hall⟩
    exact ⟨b :: bs, by rw [exceptMap, hb, hbs], List.Forall₂.cons hQ hall⟩

theorem allMats_of_forall2 {α : Type} {R : Nat → List (List α) → Prop} :
    ∀ {ls : List Nat} {parts : List (PyTensor α)},
      List.Forall₂ (fun l p => ∃ mm, p = .mat mm ∧ R l mm) ls parts →
      ∃ ms, allMats parts = some ms ∧ List.Forall₂ R ls ms
  | _, _, List.Forall₂.nil => ⟨[], rfl, List.Forall₂.nil⟩
  | _, _, List.Forall₂.cons ⟨mm, hp, hR⟩ htail => by
    rcases allMats_of_forall2 htail with ⟨ms, hms, hall⟩
    subst hp
    exact ⟨mm :: ms, by rw [allMats, hms]; rfl, List.Forall₂.cons hR hall⟩

theorem getD_lengths_of_forall2 {α : Type} {H : Nat} (i : Nat) (hi : i < H)
    {ls : List Nat} {ms : List (List (List α))}
    (h : List.Forall₂ (fun l mm => mm.length = H ∧ ∀ r ∈ mm, r.length = l) ls ms) :
    ms.map (fun m => (m.getD i []).length) = ls := by
  induction h with
  | nil => rfl
  | @cons l mm ls' ms' hR htail ih =>
    rcases hR with ⟨hlen, hrows⟩
    have hi' : i < mm.length := by omega
    have hd : mm.getD i [] = mm[i] := by
      simp [List.getD, List.getElem?_eq_getElem hi']
    rw [List.map_cons, ih, hd, hrows mm[i] (List.getElem_mem hi')]

theorem forall2_lengths_all_eq {α : Type} {H : Nat}
    {ls : List Nat} {ms : List (List (List α))}
    (h : List.Forall₂ (fun l mm => mm.length = H ∧ ∀ r ∈ mm, r.length = l) ls ms) :
    ∀ m ∈ ms, m.length = H := by
  intro m hm
  induction h with
  | nil => exact absurd hm (List.not_mem_nil m)
  | cons hR htail ih =>
    rcases List.mem_cons.mp hm with rfl | hm'
    · exact hR.1
    · exact ih hm'

theorem catMats_forall2 {α : Type} {H : Nat} {ls : List Nat}
    {ms : List (List (List α))} (hne : ms ≠ [])
    (hQ : List.Forall₂ (fun l mm => mm.length = H ∧ ∀ r ∈ mm, r.length = l) ls ms) :
    ∃ m, catMats ms = .ok (.mat m) ∧ m.length = H ∧
      ∀ r ∈ m, r.length = ls.sum := by
  match ms, hne with
  | m0 :: rest, _ =>
    have hall : ∀ m ∈ m0 :: rest, m.length = H := forall2_lengths_all_eq hQ
    have h0 : m0.length = H := hall m0 (List.mem_cons_self m0 rest)
    have hcond : ((m0 :: rest).all (fun m => m.length = m0.length)) = true := by
      rw [List.all_eq_true]
      intro m hm
      simp [hall m hm, h0]
    refine ⟨catMatRows m0.length (m0 :: rest), by rw [catMats, if_pos hcond], ?_, ?_⟩
    · simp [catMatRows, h0]
    · intro r hr
      rw [catMatRows] at hr
      rcases List.mem_map.mp hr with ⟨i, hi, rfl⟩
      have hiH : i < H := by
        rw [h0] at hi
        exact List.mem_range.mp hi
      rw [List.length_flatten, List.map_map]
      have := getD_lengths_of_forall2 (α := α) (H := H) i hiH hQ
      calc ((m0 :: rest).map ((fun r => r.length) ∘ fun m => m.getD i [])).sum
          = ((m0 :: rest).map (fun m => (m.getD i []).length)).sum := rfl
        _ = ls.sum := by rw [this]

theorem catOrSingle_mats {α : Type} {H : Nat} {ls : List Nat}
    {parts : List (PyTensor α)} (hne : parts ≠ [])
    (hQ : List.Forall₂ (fun l p => ∃ mm, p = PyTensor.mat mm ∧ mm.length = H ∧
        ∀ r ∈ mm, r.length = l) ls parts) :
    ∃ m, catOrSingle parts = .ok (.mat m) ∧ m.length = H ∧
      ∀ r ∈ m, r.length = ls.sum := by
  match parts, hne with
  | [p], _ =>
    rcases (List.forall₂_cons_right_iff.mp hQ) with ⟨l, ls', ⟨mm, hp, hlen, hrows⟩, htail, rfl⟩
    have : ls' = [] := List.forall₂_nil_right_iff.mp htail
    subst this
    subst hp
    refine ⟨mm, by rw [catOrSingle]; rfl, hlen, ?_⟩
    intro r hr
    simp [hrows r hr]
  | p :: q :: rest, _ =>
    have hmats := allMats_of_forall2 hQ
    rcases hmats with ⟨ms, hms, hall⟩
    have hmsne : ms ≠ [] := by
      intro hcon
      subst hcon
      have h1 := hall.length_eq
      have hq := hQ.length_eq
      simp only [List.length_cons, List.length_nil] at h1 hq
      omega
    rcases catMats_forall2 hmsne hall with ⟨m, hcat, hlen, hrows⟩
    refine ⟨m, ?_, hlen, hrows⟩
    have h2 : (p :: q :: rest).length > 1 := by simp
    have hvecs : allVecs (p :: q :: rest) = none := by
      rcases (List.forall₂_cons_right_iff.mp hQ) with ⟨l, ls', ⟨mm, hp, _, _⟩, _, _⟩
      subst hp
      rfl
    unfold catOrSingle
    rw [if_pos h2, catLastDim, hvecs, hms]
    exact hcat



theorem forall2_right_mem {γ δ : Type} {P : γ → δ → Prop} {l1 : List γ}
    {l2 : List δ} (h : List.Forall₂ P l1 l2) : ∀ b ∈ l2, ∃ a ∈ l1, P a b := by
  induction h with
  | nil => intro b hb; exact absurd hb (List.not_mem_nil b)
  | @cons a b l1' l2' hR htail ih =>
    intro c hc
    rcases List.mem_cons.mp hc with rfl | hc'
    · exact ⟨a, List.mem_cons_self a l1', hR⟩
    · rcases ih c hc' with ⟨a', ha', hP⟩
      exact ⟨a', List.mem_cons_of_mem a ha', hP⟩

/-- C6: for a valid frame index, a non-empty action block and horizon
`H ≥ 1`, when every spec's raw data is available (fast-path matrix of `H`
rows, or in-episode fallback columns) the composed action succeeds with shape
exactly `[H, D_total]`, where `D_total` is the sum of the specs' slice
lengths — in particular it never fails for a horizon extending past the
episode end, because the clamped indices never leave the episode. -/
theorem compose_action_shape {α : Type} (H : Nat) (epTable : Nat → Option (Int × Int))
    (ds : Int → String → Option (List α)) (item : Item α) (idx : Int)
    (specs : List FieldSpec) (w : FieldSpec → Nat) (epStart epEnd : Int)
    (_hH : 1 ≤ H) (hne : specs ≠ [])
    (hep : epTable item.episode_index = some (epStart, epEnd))
    (hse : epStart < epEnd) (_hidx : epStart ≤ idx ∧ idx < epEnd)
    (hres : ∀ sp ∈ specs, specResolved H epStart epEnd ds item (w sp) sp) :
    ∃ m, compose_action H epTable ds item idx specs = .ok (.mat m)
      ∧ m.length = H
      ∧ ∀ r ∈ m, r.length =
          (specs.map (fun sp => sliceLenSpec (w sp) sp.start sp.endIdx)).sum := by
  have hidxmem : ∀ i ∈ windowIndices H epStart epEnd idx, epStart ≤ i ∧ i ≤ epEnd - 1 := by
    intro c hc
    rcases mem_windowIndices.mp hc with ⟨t, _, rfl⟩
    simp only [clampedIndex]
    omega
  have hwlen : (windowIndices H epStart epEnd idx).length = H := by
    simp [windowIndices]
  have hgatherSpec : ∀ sp ∈ specs,
      (∀ i : Int, epStart ≤ i → i ≤ epEnd - 1 →
        ∃ r, ds i sp.original_key = some r ∧ r.length = w sp) →
      ∃ rows, gatherRows ds sp.original_key (windowIndices H epStart epEnd idx) = .ok rows
        ∧ rows.length = H ∧ ∀ r ∈ rows, r.length = w sp := by
    intro sp _ havail
    obtain ⟨rows, hrows, hF⟩ := gatherRows_ok ds sp.original_key
      (windowIndices H epStart epEnd idx)
      (fun i hi => by
        rcases havail i (hidxmem i hi).1 (hidxmem i hi).2 with ⟨r, hr, _⟩
        exact ⟨r, hr⟩)
    refine ⟨rows, hrows, by rw [← hF.length_eq, hwlen], ?_⟩
    intro r hr
    rcases forall2_right_mem hF r hr with ⟨i, hi, hd⟩
    rcases havail i (hidxmem i hi).1 (hidxmem i hi).2 with ⟨r', hr', hlen'⟩
    rw [hd] at hr'
    rw [show r = r' from by injection hr']
    exact hlen'
  have hspec : ∀ sp ∈ specs, ∃ p,
      actionFetchSlice ds item (windowIndices H epStart epEnd idx) sp = .ok p ∧
      ∃ mm, p = PyTensor.mat mm ∧ mm.length = H ∧
        ∀ r ∈ mm, r.length = sliceLenSpec (w sp) sp.start sp.endIdx := by
    intro sp hsp
    have hres' := hres sp hsp
    rw [specResolved] at hres'
    have hfromMat : ∀ mm : List (List α),
        fetchActionTensor ds item (windowIndices H epStart epEnd idx) sp = .ok (.mat mm) →
        mm.length = H → (∀ r ∈ mm, r.length = w sp) →
        ∃ p, actionFetchSlice ds item (windowIndices H epStart epEnd idx) sp = .ok p ∧
          ∃ mm', p = PyTensor.mat mm' ∧ mm'.length = H ∧
            ∀ r ∈ mm', r.length = sliceLenSpec (w sp) sp.start sp.endIdx := by
      intro mm hfetch hmmlen hmmrows
      refine ⟨.mat (mm.map (fun r => sliceList r sp.start sp.endIdx)), ?_,
        mm.map (fun r => sliceList r sp.start sp.endIdx), rfl, by simp [hmmlen], ?_⟩
      · rw [actionFetchSlice, hfetch]
        rfl
      · intro r hr
        rcases List.mem_map.mp hr with ⟨r', hr', rfl⟩
        rw [sliceList_length, hmmrows r' hr']
    rcases hfld : item.fields sp.original_key with _ | t
    · rw [hfld] at hres'
      rcases hgatherSpec sp hsp hres' with ⟨rows, hrows, hrlen, hrw⟩
      refine hfromMat rows ?_ hrlen hrw
      rw [fetchActionTensor, hfld, hrows]
    · rcases t with x | v | m
      · rw [hfld] at hres'
        rcases hgatherSpec sp hsp hres' with ⟨rows, hrows, hrlen, hrw⟩
        refine hfromMat rows ?_ hrlen hrw
        rw [fetchActionTensor, hfld, hrows]
      · rw [hfld] at hres'
        rcases hgatherSpec sp hsp hres' with ⟨rows, hrows, hrlen, hrw⟩
        refine hfromMat rows ?_ hrlen hrw
        rw [fetchActionTensor, hfld, hrows]
      · rw [hfld] at hres'
        exact hfromMat m (by rw [fetchActionTensor, hfld]) hres'.1 hres'.2
  obtain ⟨parts, hparts, hQ⟩ := exceptMap_ok_forall2
    (actionFetchSlice ds item (windowIndices H epStart epEnd idx))
    (fun sp p => ∃ mm, p = PyTensor.mat mm ∧ mm.length = H ∧
      ∀ r ∈ mm, r.length = sliceLenSpec (w sp) sp.start sp.endIdx)
    specs hspec
  have hQ' : List.Forall₂
      (fun l p => ∃ mm, p = PyTensor.mat mm ∧ mm.length = H ∧ ∀ r ∈ mm, r.length = l)
      (specs.map (fun sp => sliceLenSpec (w sp) sp.start sp.endIdx)) parts :=
    List.forall₂_map_left_iff.mpr hQ
  have hpne : parts ≠ [] := by
    intro hcon
    subst hcon
    have h1 := hQ.length_eq
    simp only [List.length_nil] at h1
    exact hne (List.length_eq_zero.mp h1)
  rcases catOrSingle_mats hpne hQ' with ⟨m, hcat, hlen, hrows⟩
  refine ⟨m, ?_, hlen, hrows⟩
  rw [compose_action_unfold H epTable ds item idx specs epStart epEnd hep, hparts]
  exact hcat

/-- C6 witness: a single-spec action block over a width-2 column store,
horizon 3 starting at the second-to-last in-episode frame: the result is a
`3 × 2` matrix even though the horizon overruns the episode end. -/
theorem compose_action_shape_witness :
    ∃ m, compose_action 3 w4eps (fun _ _ => some ([5, 6] : List Int)) w4aitem 1 w4a =
        .ok (.mat m)
      ∧ m.length = 3
      ∧ ∀ r ∈ m, r.length =
          (w4a.map (fun sp => sliceLenSpec 2 sp.start sp.endIdx)).sum :=
  compose_action_shape 3 w4eps (fun _ _ => some ([5, 6] : List Int)) w4aitem 1 w4a
    (fun _ => 2) 0 3 (by decide) (by decide) (by decide) (by decide)
    ⟨by decide, by decide⟩
    (by
      intro sp hsp
      rw [specResolved]
      exact fun i _ _ => ⟨[5, 6], rfl, rfl⟩)



theorem exceptMap_congr {σ β : Type} (g1 g2 : σ → Except Err β) :
    ∀ (l : List σ), (∀ a ∈ l, g1 a = g2 a) → exceptMap g1 l = exceptMap g2 l
  | [], _ => rfl
  | x :: xs, h => by
    rw [exceptMap, exceptMap, h x (List.mem_cons_self x xs),
      exceptMap_congr g1 g2 xs (fun a ha => h a (List.mem_cons_of_mem x ha))]

/-- C7: when the caller supplies, for every action spec, a pre-gathered 2-dim
tensor equal to what the fallback gather at the clamped indices would
produce, the fast path and the fallback path (an item with no 2-dim tensors
under the original keys) compose identical action results. -/
theorem fast_fallback_equiv {α : Type} (H : Nat) (epTable : Nat → Option (Int × Int))
    (ds : Int → String → Option (List α)) (itemF itemB : Item α) (idx : Int)
    (specs : List FieldSpec) (epStart epEnd : Int)
    (heq : itemF.episode_index = itemB.episode_index)
    (hep : epTable itemB.episode_index = some (epStart, epEnd))
    (hfast : ∀ sp ∈ specs, ∃ m, itemF.fields sp.original_key = some (.mat m) ∧
        gatherRows ds sp.original_key (windowIndices H epStart epEnd idx) = .ok m)
    (hfb : ∀ sp ∈ specs, ∀ m, itemB.fields sp.original_key ≠ some (.mat m)) :
    compose_action H epTable ds itemF idx specs =
      compose_action H epTable ds itemB idx specs := by
  have hepF : epTable itemF.episode_index = some (epStart, epEnd) := by
    rw [heq]
    exact hep
  rw [compose_action_unfold H epTable ds itemF idx specs epStart epEnd hepF,
      compose_action_unfold H epTable ds itemB idx specs epStart epEnd hep]
  have hmap : exceptMap (actionFetchSlice ds itemF (windowIndices H epStart epEnd idx)) specs =
      exceptMap (actionFetchSlice ds itemB (windowIndices H epStart epEnd idx)) specs := by
    apply exceptMap_congr
    intro sp hsp
    rcases hfast sp hsp with ⟨m, hF, hg⟩
    have hfetchF : fetchActionTensor ds itemF (windowIndices H epStart epEnd idx) sp =
        .ok (.mat m) := by
      rw [fetchActionTensor, hF]
    have hfetchB : fetchActionTensor ds itemB (windowIndices H epStart epEnd idx) sp =
        .ok (.mat m) := by
      rw [fetchActionTensor]
      rcases hB : itemB.fields sp.original_key with _ | t
      · rw [hg]
      · rcases t with x | v | mm
        · rw [hg]
        · rw [hg]
        · exact absurd hB (hfb sp hsp mm)
    rw [actionFetchSlice, actionFetchSlice, hfetchF, hfetchB]
  rw [hmap]

/-- C7 witness: with the pre-gathered tensor equal to the fallback gather at
clamped indices `[2, 2]` of episode `[0, 3)`, both paths produce the same
composed action. -/
theorem fast_fallback_equiv_witness :
    compose_action 2 w4eps w7ds w7fast 2 w7specs =
      compose_action 2 w4eps w7ds w7fb 2 w7specs :=
  fast_fallback_equiv 2 w4eps w7ds w7fast w7fb 2 w7specs 0 3 rfl (by decide)
    (by
      intro sp hsp
      fin_cases hsp
      exact ⟨[[2], [2]], by decide, by decide⟩)
    (by
      intro sp hsp m h
      fin_cases hsp
      exact Option.noConfusion h)



/-- C8 counterexample: the underlying record already holds `action = [99]`,
but the returned record maps `action` to the freshly composed `[1, 1]`-shaped
tensor `[[7]]` — the pre-existing value is overwritten, not preserved. -/
theorem getitem_overwrite_cex :
    getItemField (getItem 1 w4eps w8ds w8s w8a "state" "action" w8item 0) "action" =
        some (.mat [[7]])
    ∧ w8item.fields "action" = some (.vec [99])
    ∧ (some (PyTensor.mat [[(7 : Int)]]) ≠ some (PyTensor.vec [99])) := by
  refine ⟨by decide, by decide, by decide⟩

/-- C8 amended: on success, `__getitem__` returns the underlying record with
the configured state and action keys set to the composed values — overwriting
any pre-existing values under those names (when the two configured names
coincide, the action wins) — while every other key keeps its original
value. -/
theorem getitem_updates {α : Type} (H : Nat) (epTable : Nat → Option (Int × Int))
    (ds : Int → String → Option (List α)) (sspecs aspecs : List FieldSpec)
    (skey akey : String) (item : Item α) (idx : Int)
    (r : String → Option (PyTensor α))
    (hok : getItem H epTable ds sspecs aspecs skey akey item idx = .ok r) :
    ∃ st ac, compose_state item sspecs = .ok st
      ∧ compose_action H epTable ds (stateInjected item skey st) idx aspecs = .ok ac
      ∧ r akey = some ac
      ∧ (skey ≠ akey → r skey = some st)
      ∧ ∀ k, k ≠ skey → k ≠ akey → r k = item.fields k := by
  unfold getItem at hok
  rcases hst : compose_state item sspecs with e | st <;> simp only [hst] at hok
  · exact absurd hok (by simp)
  · rcases hac : compose_action H epTable ds (stateInjected item skey st) idx aspecs
        with e | ac <;> simp only [hac] at hok
    · exact absurd hok (by simp)
    · have hr : (fun k =>
          if k = akey then some ac else (stateInjected item skey st).fields k) = r := by
        injection hok
      refine ⟨st, ac, rfl, hac, ?_, ?_, ?_⟩
      · rw [← hr]
        simp
      · intro hne
        rw [← hr]
        simp [stateInjected, hne]
      · intro k hks hka
        rw [← hr]
        simp [stateInjected, hks, hka]

/-- C8 witness: the amended record law instantiated on the `w8` fixtures,
where the composed state is `[1]` and the composed action is `[[7]]`. -/
theorem getitem_updates_witness :
    ∃ st ac, compose_state w8item w8s = .ok st
      ∧ compose_action 1 w4eps w8ds (stateInjected w8item "state" st) 0 w8a = .ok ac
      ∧ w8r "action" = some ac
      ∧ ("state" ≠ "action" → w8r "state" = some st)
      ∧ ∀ k, k ≠ "state" → k ≠ "action" → w8r k = w8item.fields k :=
  getitem_updates 1 w4eps w8ds w8s w8a "state" "action" w8item 0 w8r rfl



theorem exceptMap_ok_mem {σ β : Type} (g : σ → Except Err β) :
    ∀ (l : List σ) (bs : List β), exceptMap g l = .ok bs →
      ∀ b ∈ bs, ∃ a ∈ l, g a = .ok b
  | [], bs, h => by
    rw [exceptMap] at h
    rw [show bs = [] from by injection h with h'; exact h'.symm]
    intro b hb
    exact absurd hb (List.not_mem_nil b)
  | x :: xs, bs, h => by
    rw [exceptMap] at h
    rcases hx : g x with e | b0 <;> rw [hx] at h
    · exact absurd h (by simp)
    · rcases hr : exceptMap g xs with e | bs' <;> rw [hr] at h
      · exact absurd h (by simp)
      · rw [show bs = b0 :: bs' from by injection h with h'; exact h'.symm]
        intro b hb
        rcases List.mem_cons.mp hb with rfl | hb'
        · exact ⟨x, List.mem_cons_self x xs, hx⟩
        · rcases exceptMap_ok_mem g xs bs' hr b hb' with ⟨a, ha, hga⟩
          exact ⟨a, List.mem_cons_of_mem x ha, hga⟩

theorem allVecs_mem {α : Type} :
    ∀ (parts : List (PyTensor α)) (vs : List (List α)), allVecs parts = some vs →
      ∀ v ∈ vs, PyTensor.vec v ∈ parts
  | [], vs, h => by
    rw [show vs = [] from by injection h with h'; exact h'.symm]
    intro v hv
    exact absurd hv (List.not_mem_nil v)
  | .vec v0 :: rest, vs, h => by
    rw [allVecs] at h
    rcases hr : allVecs rest with _ | vs' <;> rw [hr] at h
    · exact absurd h (by simp)
    · rw [show vs = v0 :: vs' from by injection h with h'; exact h'.symm]
      intro v hv
      rcases List.mem_cons.mp hv with rfl | hv'
      · exact List.mem_cons_self _ _
      · exact List.mem_cons_of_mem _ (allVecs_mem rest vs' hr v hv')
  | .scalarT x :: rest, vs, h => Option.noConfusion h
  | .mat m :: rest, vs, h => Option.noConfusion h

theorem allMats_mem {α : Type} :
    ∀ (parts : List (PyTensor α)) (ms : List (List (List α))), allMats parts = some ms →
      ∀ m ∈ ms, PyTensor.mat m ∈ parts
  | [], ms, h => by
    rw [show ms = [] from by injection h with h'; exact h'.symm]
    intro m hm
    exact absurd hm (List.not_mem_nil m)
  | .mat m0 :: rest, ms, h => by
    rw [allMats] at h
    rcases hr : allMats rest with _ | ms' <;> rw [hr] at h
    · exact absurd h (by simp)
    · rw [show ms = m0 :: ms' from by injection h with h'; exact h'.symm]
      intro m hm
      rcases List.mem_cons.mp hm with rfl | hm'
      · exact List.mem_cons_self _ _
      · exact List.mem_cons_of_mem _ (allMats_mem rest ms' hr m hm')
  | .scalarT x :: rest, ms, h => Option.noConfusion h
  | .vec v :: rest, ms, h => Option.noConfusion h

theorem mem_getD_mem {α : Type} (m : List (List α)) (i : Nat) (y : α)
    (hy : y ∈ m.getD i []) : ∃ row ∈ m, y ∈ row := by
  rw [List.getD] at hy
  rcases hg : m.get? i with _ | row <;> rw [hg] at hy
  · exact absurd hy (List.not_mem_nil y)
  · exact ⟨row, List.get?_mem hg, hy⟩

theorem mem_sliceList {α : Type} (x : List α) (s e : Int) (y : α)
    (hy : y ∈ sliceList x s e) : y ∈ x := by
  rw [sliceList] at hy
  split at hy
  · exact List.mem_of_mem_drop hy
  · exact List.mem_of_mem_take (List.mem_of_mem_drop hy)

theorem sliceTensor_elems {α : Type} (t p : PyTensor α) (s e : Int)
    (h : slice_last_dim t s e = .ok p) :
    ∀ y ∈ tensorElems p, y ∈ tensorElems t := by
  rcases t with x | v | m
  · exact absurd h (by simp [slice_last_dim])
  · rw [show p = .vec (sliceList v s e) from by
      rw [slice_last_dim] at h; injection h with h'; exact h'.symm]
    intro y hy
    exact mem_sliceList v s e y hy
  · rw [show p = .mat (m.map (fun r => sliceList r s e)) from by
      rw [slice_last_dim] at h; injection h with h'; exact h'.symm]
    intro y hy
    rcases List.mem_flatten.mp hy with ⟨row, hrow, hyrow⟩
    rcases List.mem_map.mp hrow with ⟨r', hr', rfl⟩
    exact List.mem_flatten.mpr ⟨r', hr', mem_sliceList r' s e y hyrow⟩

theorem stateFetchSlice_elems {α : Type} (item : Item α) (sp : FieldSpec)
    (p : PyTensor α) (h : stateFetchSlice item sp = .ok p) :
    ∃ u, item.fields sp.original_key = some u ∧
      ∀ y ∈ tensorElems p, y ∈ tensorElems u := by
  rw [stateFetchSlice] at h
  rcases hf : item.fields sp.original_key with _ | t <;> rw [hf] at h
  · exact absurd h (by simp)
  · exact ⟨t, rfl, sliceTensor_elems t p sp.start sp.endIdx h⟩

theorem catOrSingle_elems {α : Type} (parts : List (PyTensor α)) (t : PyTensor α)
    (h : catOrSingle parts = .ok t) :
    ∀ y ∈ tensorElems t, ∃ p ∈ parts, y ∈ tensorElems p := by
  rcases parts with _ | ⟨p, _ | ⟨q, rest⟩⟩
  · have h' : (Except.error Err.indexError : Except Err (PyTensor α)) = .ok t := h
    exact absurd h' (by simp)
  · have h' : (Except.ok p : Except Err (PyTensor α)) = .ok t := h
    rw [show t = p from by injection h' with h''; exact h''.symm]
    intro y hy
    exact ⟨p, List.mem_cons_self p [], hy⟩
  · have h2 : (p :: q :: rest).length > 1 := by simp
    unfold catOrSingle at h
    rw [if_pos h2, catLastDim] at h
    rcases hv : allVecs (p :: q :: rest) with _ | vs <;> simp only [hv] at h
    · rcases hm : allMats (p :: q :: rest) with _ | ms <;> simp only [hm] at h
      · exact absurd h (by simp)
      · rcases hms : ms with _ | ⟨m0, mrest⟩
        · subst hms
          have h' : (Except.error Err.indexError : Except Err (PyTensor α)) = .ok t := h
          exact absurd h' (by simp)
        · subst hms
          rw [catMats] at h
          split at h
          · rw [show t = .mat (catMatRows m0.length (m0 :: mrest)) from by
              injection h with h'; exact h'.symm]
            intro y hy
            rcases List.mem_flatten.mp hy with ⟨row, hrow, hyrow⟩
            rw [catMatRows] at hrow
            rcases List.mem_map.mp hrow with ⟨i, _, rfl⟩
            rcases List.mem_flatten.mp hyrow with ⟨seg, hseg, hyseg⟩
            rcases List.mem_map.mp hseg with ⟨mm, hmm, rfl⟩
            rcases mem_getD_mem mm i y hyseg with ⟨r, hr, hyr⟩
            refine ⟨.mat mm, allMats_mem _ (m0 :: mrest) hm mm hmm, ?_⟩
            exact List.mem_flatten.mpr ⟨r, hr, hyr⟩
          · exact absurd h (by simp)
    · rw [show t = .vec vs.flatten from by injection h with h'; exact h'.symm]
      intro y hy
      rcases List.mem_flatten.mp hy with ⟨v, hv', hyv⟩
      exact ⟨.vec v, allVecs_mem _ vs hv v hv', hyv⟩

/-- C9 counterexample: with a non-finite value in the raw column, composition
does not fail — `__getitem__` succeeds and returns the non-finite value
unchanged under both unified keys, so no data-integrity error exists and the
returned values are not all finite. -/
theorem nonfinite_passthrough_cex :
    getItemField (getItem 1 w4eps w9ds w9specs w9specs "state" "action" w9nan 0) "state" =
        some (.vec [FVal.nan])
    ∧ getItemField (getItem 1 w4eps w9ds w9specs w9specs "state" "action" w9nan 0) "action" =
        some (.mat [[FVal.nan]])
    ∧ FVal.isFinite FVal.nan = false := by
  refine ⟨by decide, by decide, rfl⟩

theorem batchSum_append {D : Nat} (a b : List (Fin D → ℚ)) (i : Fin D) :
    batchSum (a ++ b) i = batchSum a i + batchSum b i := by
  simp [batchSum]

theorem batchSumSq_append {D : Nat} (a b : List (Fin D → ℚ)) (i : Fin D) :
    batchSumSq (a ++ b) i = batchSumSq a i + batchSumSq b i := by
  simp [batchSumSq]

theorem update1_statsOf {D : Nat} (xs : List (Fin D → ℚ)) (x : Fin D → ℚ) :
    RunningStats.update1 (statsOf xs) x = statsOf (xs ++ [x]) := by
  have hS : batchSum (xs ++ [x]) = fun i => batchSum xs i + x i := by
    funext i
    simp [batchSum_append, batchSum]
  have hQ : batchSumSq (xs ++ [x]) = fun i => batchSumSq xs i + x i ^ 2 := by
    funext i
    simp [batchSumSq_append, batchSumSq]
  simp only [RunningStats.update1, statsOf, hS, hQ,
    List.length_append, List.length_cons, List.length_nil]
  rw [RunningStats.mk.injEq]
  refine ⟨rfl, ?_, ?_⟩
  · funext i
    rcases Nat.eq_zero_or_pos xs.length with hn | hn
    · rcases List.length_eq_zero.mp hn with rfl
      simp [batchSum]
    · have h0 : ((xs.length : ℚ)) ≠ 0 := Nat.cast_ne_zero.mpr (by omega)
      have h1 : ((xs.length : ℚ) + 1) ≠ 0 := by positivity
      push_cast
      field_simp
      ring
  · funext i
    rcases Nat.eq_zero_or_pos xs.length with hn | hn
    · rcases List.length_eq_zero.mp hn with rfl
      simp [batchSum, batchSumSq]
    · have h0 : ((xs.length : ℚ)) ≠ 0 := Nat.cast_ne_zero.mpr (by omega)
      have h1 : ((xs.length : ℚ) + 1) ≠ 0 := by positivity
      push_cast
      field_simp
      ring

theorem update_statsOf {D : Nat} (xs : List (Fin D → ℚ)) :
    RunningStats.update (RunningStats.empty D) xs = statsOf xs := by
  induction xs using List.reverseRecOn with
  | nil =>
    simp only [RunningStats.update, List.foldl_nil, RunningStats.empty, statsOf]
    rw [RunningStats.mk.injEq]
    refine ⟨rfl, ?_, ?_⟩
    · funext i
      simp [batchSum]
    · funext i
      simp [batchSum, batchSumSq]
  | append_singleton xs x ih =>
    rw [RunningStats.update, List.foldl_append, List.foldl_cons, List.foldl_nil,
      ← RunningStats.update, ih, update1_statsOf]

theorem merge_statsOf {D : Nat} (a b : List (Fin D → ℚ)) :
    RunningStats.merge (statsOf a) (statsOf b) = statsOf (a ++ b) := by
  simp only [RunningStats.merge, statsOf, List.length_append]
  rw [RunningStats.mk.injEq]
  refine ⟨rfl, ?_, ?_⟩
  · funext i
    rw [batchSum_append]
    rcases Nat.eq_zero_or_pos a.length with ha | ha
    · rcases List.length_eq_zero.mp ha with rfl
      rcases Nat.eq_zero_or_pos b.length with hb | hb
      · rcases List.length_eq_zero.mp hb with rfl
        simp [batchSum]
      · have hb0 : ((b.length : ℚ)) ≠ 0 := Nat.cast_ne_zero.mpr (by omega)
        simp only [batchSum, List.map_nil, List.sum_nil, List.length_nil]
        push_cast
        field_simp
    · rcases Nat.eq_zero_or_pos b.length with hb | hb
      · rcases List.length_eq_zero.mp hb with rfl
        simp [batchSum]
      · have ha0 : ((a.length : ℚ)) ≠ 0 := Nat.cast_ne_zero.mpr (by omega)
        have hb0 : ((b.length : ℚ)) ≠ 0 := Nat.cast_ne_zero.mpr (by omega)
        have hab0 : ((a.length : ℚ) + (b.length : ℚ)) ≠ 0 := by positivity
        push_cast
        field_simp
        ring
  · funext i
    rw [batchSum_append, batchSumSq_append]
    rcases Nat.eq_zero_or_pos a.length with ha | ha
    · rcases List.length_eq_zero.mp ha with rfl
      rcases Nat.eq_zero_or_pos b.length with hb | hb
      · rcases List.length_eq_zero.mp hb with rfl
        simp [batchSum, batchSumSq]
      · have hb0 : ((b.length : ℚ)) ≠ 0 := Nat.cast_ne_zero.mpr (by omega)
        simp only [batchSum, batchSumSq, List.map_nil, List.sum_nil, List.length_nil]
        push_cast
        field_simp
    · rcases Nat.eq_zero_or_pos b.length with hb | hb
      · rcases List.length_eq_zero.mp hb with rfl
        simp only [batchSum, batchSumSq, List.map_nil, List.sum_nil, List.length_nil]
        have ha0 : ((a.length : ℚ)) ≠ 0 := Nat.cast_ne_zero.mpr (by omega)
        push_cast
        field_simp
      · have ha0 : ((a.length : ℚ)) ≠ 0 := Nat.cast_ne_zero.mpr (by omega)
        have hb0 : ((b.length : ℚ)) ≠ 0 := Nat.cast_ne_zero.mpr (by omega)
        have hab0 : ((a.length : ℚ) + (b.length : ℚ)) ≠ 0 := by positivity
        push_cast
        field_simp
        ring

theorem statsOf_append_comm {D : Nat} (a b : List (Fin D → ℚ)) :
    statsOf (a ++ b) = statsOf (b ++ a) := by
  simp only [statsOf, List.length_append]
  rw [RunningStats.mk.injEq]
  refine ⟨by omega, ?_, ?_⟩
  · funext i
    rw [batchSum_append, batchSum_append, add_comm (batchSum a i),
      Nat.add_comm a.length]
  · funext i
    rw [batchSum_append, batchSum_append, batchSumSq_append, batchSumSq_append,
      add_comm (batchSum a i), add_comm (batchSumSq a i), Nat.add_comm a.length]

/-- C3 (RunningStats modelled from the spec, over exact rationals): merging
the accumulators of two batches equals accumulating their concatenation;
merge is commutative and associative on accumulated states; and the merged
count is the total number of samples. -/
theorem running_stats_merge_laws (D : Nat) (b1 b2 b3 : List (Fin D → ℚ)) :
    RunningStats.merge (RunningStats.update (RunningStats.empty D) b1)
        (RunningStats.update (RunningStats.empty D) b2) =
      RunningStats.update (RunningStats.empty D) (b1 ++ b2)
    ∧ RunningStats.merge (RunningStats.update (RunningStats.empty D) b1)
        (RunningStats.update (RunningStats.empty D) b2) =
      RunningStats.merge (RunningStats.update (RunningStats.empty D) b2)
        (RunningStats.update (RunningStats.empty D) b1)
    ∧ RunningStats.merge
        (RunningStats.merge (RunningStats.update (RunningStats.empty D) b1)
          (RunningStats.update (RunningStats.empty D) b2))
        (RunningStats.update (RunningStats.empty D) b3) =
      RunningStats.merge (RunningStats.update (RunningStats.empty D) b1)
        (RunningStats.merge (RunningStats.update (RunningStats.empty D) b2)
          (RunningStats.update (RunningStats.empty D) b3))
    ∧ (RunningStats.merge (RunningStats.update (RunningStats.empty D) b1)
        (RunningStats.update (RunningStats.empty D) b2)).count =
      b1.length + b2.length := by
  have law : ∀ x y : List (Fin D → ℚ),
      RunningStats.merge (RunningStats.update (RunningStats.empty D) x)
        (RunningStats.update (RunningStats.empty D) y) =
      RunningStats.update (RunningStats.empty D) (x ++ y) := by
    intro x y
    rw [update_statsOf, update_statsOf, update_statsOf, merge_statsOf]
  refine ⟨law b1 b2, ?_, ?_, ?_⟩
  · rw [law b1 b2, law b2 b1, update_statsOf, update_statsOf, statsOf_append_comm]
  · rw [law b1 b2, law b2 b3,
      show RunningStats.merge (RunningStats.update (RunningStats.empty D) (b1 ++ b2))
          (RunningStats.update (RunningStats.empty D) b3) =
        RunningStats.update (RunningStats.empty D) ((b1 ++ b2) ++ b3) from law (b1 ++ b2) b3,
      show RunningStats.merge (RunningStats.update (RunningStats.empty D) b1)
          (RunningStats.update (RunningStats.empty D) (b2 ++ b3)) =
        RunningStats.update (RunningStats.empty D) (b1 ++ (b2 ++ b3)) from law b1 (b2 ++ b3),
      List.append_assoc]
  · rw [law b1 b2, update_statsOf]
    simp [statsOf]



theorem gatherRows_ok_forall2 {α : Type} (ds : Int → String → Option (List α))
    (key : String) :
    ∀ (is : List Int) (rows : List (List α)), gatherRows ds key is = .ok rows →
      List.Forall₂ (fun i r => ds i key = some r) is rows
  | [], rows, h => by
    rw [show rows = [] from by injection h with h'; exact h'.symm]
    exact List.Forall₂.nil
  | i :: is', rows, h => by
    rw [gatherRows] at h
    rcases hd : ds i key with _ | r <;> rw [hd] at h
    · exact absurd h (by simp)
    · rcases hr : gatherRows ds key is' with e | rs <;> rw [hr] at h
      · exact absurd h (by simp)
      · rw [show rows = r :: rs from by injection h with h'; exact h'.symm]
        exact List.Forall₂.cons hd (gatherRows_ok_forall2 ds key is' rs hr)

theorem actionFetchSlice_elems {α : Type} (ds : Int → String → Option (List α))
    (item : Item α) (indices : List Int) (sp : FieldSpec) (p : PyTensor α)
    (h : actionFetchSlice ds item indices sp = .ok p) :
    (∃ u, item.fields sp.original_key = some u ∧
        ∀ y ∈ tensorElems p, y ∈ tensorElems u)
    ∨ (∀ y ∈ tensorElems p, ∃ i ∈ indices,
        ∃ r, ds i sp.original_key = some r ∧ y ∈ r) := by
  rw [actionFetchSlice] at h
  rcases hf : fetchActionTensor ds item indices sp with e | x <;> simp only [hf] at h
  · exact absurd h (by simp)
  · have hgatherCase : ∀ rows, fetchActionTensor ds item indices sp = .ok (.mat rows) →
        gatherRows ds sp.original_key indices = .ok rows → x = .mat rows →
        (∀ y ∈ tensorElems p, ∃ i ∈ indices,
          ∃ r, ds i sp.original_key = some r ∧ y ∈ r) := by
      intro rows _ hg hx
      subst hx
      have hp : p = .mat (rows.map (fun r => sliceList r sp.start sp.endIdx)) := by
        rw [slice_last_dim] at h
        injection h with h'
        exact h'.symm
      subst hp
      intro y hy
      rcases List.mem_flatten.mp hy with ⟨row, hrow, hyrow⟩
      rcases List.mem_map.mp hrow with ⟨r', hr', rfl⟩
      rcases forall2_right_mem (gatherRows_ok_forall2 ds sp.original_key indices rows hg)
        r' hr' with ⟨i, hi, hdi⟩
      exact ⟨i, hi, r', hdi, mem_sliceList r' sp.start sp.endIdx y hyrow⟩
    rw [fetchActionTensor] at hf
    rcases hfld : item.fields sp.original_key with _ | t <;> rw [hfld] at hf
    · rcases hg : gatherRows ds sp.original_key indices with e' | rows <;>
        simp only [hg] at hf
      · exact absurd hf (by simp)
      · refine Or.inr (hgatherCase rows ?_ hg ?_)
        · rw [fetchActionTensor, hfld, hg]
        · injection hf with h'
          exact h'.symm
    · rcases t with z | v | m
      · rcases hg : gatherRows ds sp.original_key indices with e' | rows <;>
          simp only [hg] at hf
        · exact absurd hf (by simp)
        · refine Or.inr (hgatherCase rows ?_ hg ?_)
          · rw [fetchActionTensor, hfld, hg]
          · injection hf with h'
            exact h'.symm
      · rcases hg : gatherRows ds sp.original_key indices with e' | rows <;>
          simp only [hg] at hf
        · exact absurd hf (by simp)
        · refine Or.inr (hgatherCase rows ?_ hg ?_)
          · rw [fetchActionTensor, hfld, hg]
          · injection hf with h'
            exact h'.symm
      · have hx : x = .mat m := by
          injection hf with h'
          exact h'.symm
        subst hx
        exact Or.inl ⟨.mat m, rfl, sliceTensor_elems (.mat m) p sp.start sp.endIdx h⟩

/-- C9 amended: composition applies no finiteness check and no imputation —
whenever composition succeeds, every element of the composed state is drawn
verbatim from a referenced input column of the frame, and every element of
the composed action is drawn verbatim from a referenced pre-gathered tensor
or from a column-store row at one of the clamped window indices (so
non-finite inputs are passed through unchanged under both unified keys
rather than rejected, zero-filled or replaced). -/
theorem compose_no_imputation {α : Type} (H : Nat)
    (epTable : Nat → Option (Int × Int)) (ds : Int → String → Option (List α))
    (item : Item α) (sspecs aspecs : List FieldSpec) (idx epStart epEnd : Int)
    (hep : epTable item.episode_index = some (epStart, epEnd)) :
    (∀ t, compose_state item sspecs = .ok t →
      ∀ y ∈ tensorElems t, ∃ sp ∈ sspecs, ∃ u,
        item.fields sp.original_key = some u ∧ y ∈ tensorElems u)
    ∧ (∀ t, compose_action H epTable ds item idx aspecs = .ok t →
      ∀ y ∈ tensorElems t, ∃ sp ∈ aspecs,
        (∃ u, item.fields sp.original_key = some u ∧ y ∈ tensorElems u)
        ∨ (∃ i ∈ windowIndices H epStart epEnd idx,
            ∃ r, ds i sp.original_key = some r ∧ y ∈ r)) := by
  constructor
  · intro t h
    rw [compose_state_unfold] at h
    rcases hm : exceptMap (stateFetchSlice item) sspecs with e | parts <;>
      simp only [hm] at h
    · exact absurd h (by simp)
    · intro y hy
      rcases catOrSingle_elems parts t h y hy with ⟨p, hp, hyp⟩
      rcases exceptMap_ok_mem (stateFetchSlice item) sspecs parts hm p hp with
        ⟨sp, hsp, hpsp⟩
      rcases stateFetchSlice_elems item sp p hpsp with ⟨u, hu, hsub⟩
      exact ⟨sp, hsp, u, hu, hsub y hyp⟩
  · intro t h
    rw [compose_action_unfold H epTable ds item idx aspecs epStart epEnd hep] at h
    rcases hm : exceptMap
        (actionFetchSlice ds item (windowIndices H epStart epEnd idx)) aspecs
        with e | parts <;> simp only [hm] at h
    · exact absurd h (by simp)
    · intro y hy
      rcases catOrSingle_elems parts t h y hy with ⟨p, hp, hyp⟩
      rcases exceptMap_ok_mem _ aspecs parts hm p hp with ⟨sp, hsp, hpsp⟩
      rcases actionFetchSlice_elems ds item _ sp p hpsp with ⟨u, hu, hsub⟩ | hgather
      · exact ⟨sp, hsp, Or.inl ⟨u, hu, hsub y hyp⟩⟩
      · exact ⟨sp, hsp, Or.inr (hgather y hyp)⟩

/-- C9 witness: the pass-through laws instantiated on an integer frame whose
column `x` holds `[1]` and a column store whose rows hold `[2]`: every
composed state element traces back to the frame column and every composed
action element traces back to a column-store row at a clamped index. -/
theorem compose_no_imputation_witness :
    (∀ t, compose_state w9wit w9specs = .ok t →
      ∀ y ∈ tensorElems t, ∃ sp ∈ w9specs, ∃ u,
        w9wit.fields sp.original_key = some u ∧ y ∈ tensorElems u)
    ∧ (∀ t, compose_action 1 w4eps w9ids w9wit 0 w9specs = .ok t →
      ∀ y ∈ tensorElems t, ∃ sp ∈ w9specs,
        (∃ u, w9wit.fields sp.original_key = some u ∧ y ∈ tensorElems u)
        ∨ (∃ i ∈ windowIndices 1 0 3 0,
            ∃ r, w9ids i sp.original_key = some r ∧ y ∈ r)) :=
  compose_no_imputation 1 w4eps w9ids w9wit w9specs w9specs 0 0 3 (by decide)


end WallX

